import Mathlib

/-!
# Verification of the kvdb badger store (`store/badger/badger.go`)

Shallow embedding of the badger-backed `Store` implementation: keys and
values are byte sequences (`List Nat`), the badger engine's sorted key
space is an association list sorted in strict byte-lexicographic order,
and the push-style `store.Iterator` is modelled by the trace of events a
producer goroutine pushes (items, then exactly one terminal signal).
-/

namespace Kvdb

/-- Byte strings: keys and values are opaque byte sequences. -/
abbrev Bytes := List Nat

/-- Go's `bytes.Compare(a, b) == -1`: strict byte-lexicographic order,
shorter prefixes sort first. -/
def lexLt : Bytes → Bytes → Bool
  | _, [] => false
  | [], _ :: _ => true
  | a :: as, b :: bs => a < b || (a == b && lexLt as bs)

/-- Go's `bytes.HasPrefix(k, p)` (badger's `ValidForPrefix`): `p` is an
initial segment of `k`. -/
def hasPref : Bytes → Bytes → Bool
  | [], _ => true
  | _ :: _, [] => false
  | p :: ps, k :: ks => p == k && hasPref ps ks

/-- Errors observable through the store: the store's own `ErrNotFound`,
badger's `ErrKeyNotFound`, `ErrTxnTooBig` and `ErrEmptyKey`, the
`context.Canceled` error, codec failures, and the `after txn too big: %w`
wrapping done by `Put`. -/
inductive BErr : Type where
  | errNotFound
  | keyNotFound
  | txnTooBig
  | emptyKey
  | canceled
  | codecErr
  | afterTxnTooBig (e : BErr)
deriving DecidableEq

/-- Modelled from the spec: the pluggable `store.Compressor` (its source is
in the `store` package, outside this backend). `Compress(value) -> bytes`,
`Decompress(bytes) -> value`; a lawful codec satisfies
`Decompress(Compress(v)) == v`, taken as a hypothesis where needed. -/
structure Compressor : Type where
  compress : Bytes → Bytes
  decompress : Bytes → Except BErr Bytes

/-- Modelled from the spec: one event pushed into a `store.Iterator` by a
producer (`PushItem`, `PushError`, `PushFinished`); an iterator's
observable behaviour is its trace of events. -/
inductive Event : Type where
  | item (key value : Bytes)
  | err (e : BErr)
  | finished
deriving DecidableEq

/-- Returns `true` exactly on the terminal signals (`PushError`/`PushFinished`). -/
def Event.terminal : Event → Bool
  | .item _ _ => false
  | .err _ => true
  | .finished => true

/-- Badger point read `txn.Get`: first binding of the key in the
association list (the list is kept duplicate-free by `insertKV`). -/
def lookup : List (Bytes × Bytes) → Bytes → Option Bytes
  | [], _ => none
  | (k, v) :: rest, key => if k == key then some v else lookup rest key

/-- Committing one entry into the engine's sorted key space: insert in
byte-lexicographic position, overwriting an existing binding. -/
def insertKV : List (Bytes × Bytes) → Bytes × Bytes → List (Bytes × Bytes)
  | [], e => [e]
  | (k, v) :: rest, e =>
    if lexLt e.1 k then e :: (k, v) :: rest
    else if e.1 == k then e :: rest
    else (k, v) :: insertKV rest e

/-- Badger `WriteBatch.Flush`: commit the batch entries in order (later
writes of a key overwrite earlier ones). -/
def insertAll (db : List (Bytes × Bytes)) (es : List (Bytes × Bytes)) :
    List (Bytes × Bytes) :=
  es.foldl insertKV db

/-- Badger `WriteBatch.SetEntry` against an engine with single-transaction
capacity `cap`: an empty key is rejected with `ErrEmptyKey`; a batch at
capacity is rejected with `ErrTxnTooBig`; otherwise the entry is appended. -/
def setEntry (cap : Nat) (wb : List (Bytes × Bytes)) (e : Bytes × Bytes) :
    Except BErr (List (Bytes × Bytes)) :=
  if e.1 = [] then .error .emptyKey
  else if cap ≤ wb.length then .error .txnTooBig
  else .ok (wb ++ [e])

/-- The caller's cancellation token, sampled at the producer's `i`-th
`ctx.Err()` check (one check per loop iteration): `cancelAt = some n`
means the token fires once `n` items have been produced; `none` means it
never fires. -/
def ctxErrAt (cancelAt : Option Nat) (i : Nat) : Bool :=
  match cancelAt with
  | none => false
  | some n => n ≤ i

/-- The badger `Store`: the durable sorted key space, the pending
`writeBatch` (`none` until first use, as in Go), and the compressor. -/
structure Store : Type where
  db : List (Bytes × Bytes)
  writeBatch : Option (List (Bytes × Bytes))
  compressor : Compressor

/-- Model of `Store.Put` (badger.go:62-85): lazily create the write batch, compress
the value, stage via `SetEntry`; on `ErrTxnTooBig` flush the existing
batch, open a fresh one and retry once (wrapping a retry failure); any
other staging error falls through to `return nil`. -/
def Store.Put (cap : Nat) (s : Store) (key value : Bytes) : Except BErr Store :=
  let wb := match s.writeBatch with
    | none => []
    | some wb => wb
  let cvalue := s.compressor.compress value
  match setEntry cap wb (key, cvalue) with
  | .ok wb' => .ok { s with writeBatch := some wb' }
  | .error .txnTooBig =>
    let db' := insertAll s.db wb
    match setEntry cap [] (key, cvalue) with
    | .ok wb2 => .ok { db := db', writeBatch := some wb2, compressor := s.compressor }
    | .error e => .error (.afterTxnTooBig e)
  | .error _ => .ok { s with writeBatch := some wb }

/-- Model of `Store.FlushPuts` (badger.go:87-97): no-op on a nil batch; otherwise
flush the batch and start a fresh one. -/
def Store.FlushPuts (s : Store) : Except BErr Store :=
  match s.writeBatch with
  | none => .ok s
  | some wb =>
    .ok { db := insertAll s.db wb, writeBatch := some [], compressor := s.compressor }

/-- Model of `Store.Get` (badger.go:99-124): point read; badger's `ErrKeyNotFound`
is mapped to the store's `ErrNotFound`; a hit is decompressed. -/
def Store.Get (s : Store) (key : Bytes) : Except BErr Bytes :=
  match lookup s.db key with
  | none => .error .errNotFound
  | some stored => s.compressor.decompress stored

/-- The producer goroutine of `Store.BatchGet` (badger.go:129-158): one
point read per requested key, in order; the first failing read (including
badger's raw `ErrKeyNotFound`) aborts the view and is pushed as the
terminal error; note the loop performs no `ctx.Err()` check. -/
def batchGetLoop (db : List (Bytes × Bytes)) (comp : Compressor) :
    List Bytes → List Event
  | [] => [.finished]
  | key :: rest =>
    match lookup db key with
    | none => [.err .keyNotFound]
    | some stored =>
      match comp.decompress stored with
      | .error e => [.err e]
      | .ok v => .item key v :: batchGetLoop db comp rest

/-- Model of `Store.BatchGet` (badger.go:126-160). The context is passed to the
iterator but never consulted by the production loop. -/
def Store.BatchGet (s : Store) (cancelAt : Option Nat) (keys : List Bytes) :
    List Event :=
  batchGetLoop s.db s.compressor keys

/-- The producer loop of `Store.Scan` (badger.go:171-192) after
`Seek(start)`: iterate while the key is below `exclusiveEnd`; each
iteration increments `count`, checks `ctx.Err()`, decompresses, pushes the
item, and breaks once `count == limit` with `limit > 0`. -/
def scanLoop (comp : Compressor) (cancelAt : Option Nat) (exclusiveEnd : Bytes)
    (limit : Int) : List (Bytes × Bytes) → Nat → List Event
  | [], _ => [.finished]
  | (k, v) :: rest, count =>
    if lexLt k exclusiveEnd then
      if ctxErrAt cancelAt count then [.err .canceled]
      else
        match comp.decompress v with
        | .error e => [.err e]
        | .ok dv =>
          .item k dv ::
            (if ((count + 1 : Nat) : Int) = limit ∧ 0 < limit then [.finished]
             else scanLoop comp cancelAt exclusiveEnd limit rest (count + 1))
    else [.finished]

/-- Model of `Store.Scan` (badger.go:162-204): `Seek(start)` positions the badger
iterator at the first key `≥ start`; the loop streams to the iterator and
ends with exactly one terminal push. -/
def Store.Scan (s : Store) (cancelAt : Option Nat) (start exclusiveEnd : Bytes)
    (limit : Int) : List Event :=
  scanLoop s.compressor cancelAt exclusiveEnd limit
    (s.db.dropWhile (fun kv => lexLt kv.1 start)) 0

/-- The producer loop of `Store.Prefix` (badger.go:216-234) after
`Seek(p)`: iterate while `ValidForPrefix(p)`; each iteration increments
`count` (unused further), checks `ctx.Err()`, decompresses and pushes. -/
def prefixLoop (comp : Compressor) (cancelAt : Option Nat) (p : Bytes) :
    List (Bytes × Bytes) → Nat → List Event
  | [], _ => [.finished]
  | (k, v) :: rest, count =>
    if hasPref p k then
      if ctxErrAt cancelAt count then [.err .canceled]
      else
        match comp.decompress v with
        | .error e => [.err e]
        | .ok dv => .item k dv :: prefixLoop comp cancelAt p rest (count + 1)
    else [.finished]

/-- Model of `Store.Prefix` (badger.go:206-246): seek to the first key `≥ p` and
stream entries while they carry the prefix. -/
def Store.PrefixScan (s : Store) (cancelAt : Option Nat) (p : Bytes) :
    List Event :=
  prefixLoop s.compressor cancelAt p
    (s.db.dropWhile (fun kv => lexLt kv.1 p)) 0

/-- The engine invariant: the key space is strictly ascending in
byte-lexicographic order (hence duplicate-free). -/
def Sorted (db : List (Bytes × Bytes)) : Prop :=
  db.Pairwise (fun a b => lexLt a.1 b.1 = true)

instance (db : List (Bytes × Bytes)) : Decidable (Sorted db) :=
  inferInstanceAs
    (Decidable (db.Pairwise (fun (a b : Bytes × Bytes) => lexLt a.1 b.1 = true)))

/-- The identity codec (`"none"` compression). -/
def idComp : Compressor := ⟨fun v => v, fun v => .ok v⟩

/-- A trace pushes exactly one terminal signal, after all items. -/
def OneTerminal (t : List Event) : Prop :=
  ∃ pre last, t = pre ++ [last] ∧ last.terminal = true ∧
    ∀ x ∈ pre, x.terminal = false

/-- Concrete key space `{"a","b","c","d"}` used to instantiate theorems. -/
def exDb : List (Bytes × Bytes) :=
  [([97], [10]), ([98], [11]), ([99], [12]), ([100], [13])]

/-- A store over `exDb` with the identity codec. -/
def exStore : Store := ⟨exDb, none, idComp⟩

/-- Concrete key space `{"ab","ac","b"}` used to instantiate theorems. -/
def pDb : List (Bytes × Bytes) := [([97, 98], [1]), ([97, 99], [2]), ([98], [3])]

/-- A store over `pDb` with the identity codec. -/
def pStore : Store := ⟨pDb, none, idComp⟩

/-- A store whose write batch already holds one entry, to exercise the
capacity-1 auto-flush path. -/
def fullStore : Store := ⟨[], some [([1], [1])], idComp⟩

theorem lexLt_trans : ∀ {a b c : Bytes},
    lexLt a b = true → lexLt b c = true → lexLt a c = true := by
  intro a
  induction a with
  | nil =>
    intro b c h1 h2
    cases b with
    | nil => simp [lexLt] at h1
    | cons y ys =>
      cases c with
      | nil => simp [lexLt] at h2
      | cons z zs => simp [lexLt]
  | cons x xs ih =>
    intro b c h1 h2
    cases b with
    | nil => simp [lexLt] at h1
    | cons y ys =>
      cases c with
      | nil => simp [lexLt] at h2
      | cons z zs =>
        simp only [lexLt, Bool.or_eq_true, Bool.and_eq_true, decide_eq_true_eq,
          beq_iff_eq] at h1 h2 ⊢
        rcases h1 with h1 | ⟨rfl, h1⟩ <;> rcases h2 with h2 | ⟨rfl, h2⟩
        · exact Or.inl (h1.trans h2)
        · exact Or.inl h1
        · exact Or.inl h2
        · exact Or.inr ⟨rfl, ih h1 h2⟩

theorem lexLt_irrefl : ∀ a : Bytes, lexLt a a = false := by
  intro a
  induction a with
  | nil => rfl
  | cons x xs ih => simp [lexLt, ih]

theorem lexLt_asymm {a b : Bytes} (h : lexLt a b = true) : lexLt b a = false := by
  by_contra hc
  have hba : lexLt b a = true := by
    cases hx : lexLt b a with
    | true => rfl
    | false => exact absurd hx hc
  have := lexLt_trans h hba
  rw [lexLt_irrefl] at this
  exact Bool.false_ne_true this

theorem hasPref_not_lt : ∀ {p k : Bytes}, hasPref p k = true → lexLt k p = false := by
  intro p
  induction p with
  | nil => intro k _; cases k <;> rfl
  | cons x ps ih =>
    intro k hp
    cases k with
    | nil => simp [hasPref] at hp
    | cons y ks =>
      simp only [hasPref, Bool.and_eq_true, beq_iff_eq] at hp
      obtain ⟨rfl, hp⟩ := hp
      simp [lexLt, ih hp]

theorem hasPref_between : ∀ {p k k' : Bytes}, hasPref p k = true →
    hasPref p k' = false → lexLt k' p = false → lexLt k k' = true := by
  intro p
  induction p with
  | nil => intro k k' _ h2 _; simp [hasPref] at h2
  | cons x ps ih =>
    intro k k' h1 h2 h3
    cases k with
    | nil => simp [hasPref] at h1
    | cons y ks =>
      simp only [hasPref, Bool.and_eq_true, beq_iff_eq] at h1
      obtain ⟨rfl, h1⟩ := h1
      cases k' with
      | nil => simp [lexLt] at h3
      | cons z ks' =>
        rw [← Bool.not_eq_true] at h2 h3
        simp only [hasPref, Bool.and_eq_true, beq_iff_eq] at h2
        simp only [lexLt, Bool.or_eq_true, Bool.and_eq_true, decide_eq_true_eq,
          beq_iff_eq] at h3
        simp only [lexLt, Bool.or_eq_true, Bool.and_eq_true, decide_eq_true_eq,
          beq_iff_eq]
        rcases Nat.lt_trichotomy x z with hlt | heq | hgt
        · exact Or.inl hlt
        · subst heq
          have h2' : hasPref ps ks' = false := by
            cases hh : hasPref ps ks' with
            | false => rfl
            | true => exact absurd ⟨rfl, hh⟩ h2
          have h3' : lexLt ks' ps = false := by
            cases hh : lexLt ks' ps with
            | false => rfl
            | true => exact absurd (Or.inr ⟨rfl, hh⟩) h3
          exact Or.inr ⟨rfl, ih h1 h2' h3'⟩
        · exact absurd (Or.inl hgt) h3

theorem dropWhile_eq_filter_of_sorted {α : Type} {R : α → α → Prop} {q : α → Bool}
    (hmono : ∀ a b, R a b → q a = false → q b = false) :
    ∀ l : List α, l.Pairwise R → l.dropWhile q = l.filter (fun a => !q a) := by
  intro l
  induction l with
  | nil => intro _; rfl
  | cons a t ih =>
    intro hp
    rw [List.pairwise_cons] at hp
    cases hq : q a with
    | true =>
      rw [List.dropWhile_cons_of_pos hq, List.filter_cons_of_neg (by simp [hq]),
        ih hp.2]
    | false =>
      rw [List.dropWhile_cons_of_neg (by simp [hq]),
        List.filter_cons_of_pos (by simp [hq])]
      have : t.filter (fun a => !q a) = t := by
        rw [List.filter_eq_self]
        intro b hb
        simp [hmono a b (hp.1 b hb) hq]
      rw [this]

theorem takeWhile_eq_filter_of_sorted {α : Type} {R : α → α → Prop} {P : α → Prop}
    {q : α → Bool}
    (hmono : ∀ a b, P a → P b → R a b → q b = true → q a = true) :
    ∀ l : List α, l.Pairwise R → (∀ a ∈ l, P a) → l.takeWhile q = l.filter q := by
  intro l
  induction l with
  | nil => intro _ _; rfl
  | cons a t ih =>
    intro hp hP
    rw [List.pairwise_cons] at hp
    cases hq : q a with
    | true =>
      rw [List.takeWhile_cons_of_pos hq, List.filter_cons_of_pos hq,
        ih hp.2 (fun b hb => hP b (List.mem_cons_of_mem a hb))]
    | false =>
      rw [List.takeWhile_cons_of_neg (by simp [hq]),
        List.filter_cons_of_neg (by simp [hq])]
      have : t.filter q = [] := by
        rw [List.filter_eq_nil_iff]
        intro b hb hqb
        have := hmono a b (hP a (List.mem_cons_self a t))
          (hP b (List.mem_cons_of_mem a hb)) (hp.1 b hb) hqb
        rw [hq] at this
        exact Bool.false_ne_true this
      rw [this]

theorem lookup_insertKV_self : ∀ (l : List (Bytes × Bytes)) (k v : Bytes),
    lookup (insertKV l (k, v)) k = some v := by
  intro l k v
  induction l with
  | nil => simp [insertKV, lookup]
  | cons e rest ih =>
    obtain ⟨k0, v0⟩ := e
    show lookup (insertKV ((k0, v0) :: rest) (k, v)) k = some v
    rw [insertKV]
    by_cases hlt : lexLt k k0 = true
    · simp [hlt, lookup]
    · rw [if_neg hlt]
      by_cases heq : k = k0
      · subst heq
        simp [lookup]
      · have hne : (k == k0) = false := by simp [heq]
        rw [if_neg (by simp [heq])]
        show lookup ((k0, v0) :: insertKV rest (k, v)) k = some v
        rw [lookup]
        have : (k0 == k) = false := by
          simp only [beq_eq_false_iff_ne, ne_eq]
          intro h
          exact heq h.symm
        rw [this]
        simpa using ih

theorem insertAll_append_single (db : List (Bytes × Bytes))
    (es : List (Bytes × Bytes)) (e : Bytes × Bytes) :
    insertAll db (es ++ [e]) = insertKV (insertAll db es) e := by
  simp [insertAll, List.foldl_append]

theorem batchGetLoop_append_ok (db : List (Bytes × Bytes)) (comp : Compressor)
    (sv d : Bytes → Bytes) :
    ∀ (ks1 rest : List Bytes),
    (∀ k ∈ ks1, lookup db k = some (sv k)) →
    (∀ k ∈ ks1, comp.decompress (sv k) = .ok (d k)) →
    batchGetLoop db comp (ks1 ++ rest) =
      ks1.map (fun k => Event.item k (d k)) ++ batchGetLoop db comp rest := by
  intro ks1
  induction ks1 with
  | nil => intro rest _ _; rfl
  | cons k ks ih =>
    intro rest hv hd
    have hk := hv k (List.mem_cons_self k ks)
    have hdk := hd k (List.mem_cons_self k ks)
    have ihr := ih rest (fun k' h => hv k' (List.mem_cons_of_mem k h))
      (fun k' h => hd k' (List.mem_cons_of_mem k h))
    simp [batchGetLoop, hk, hdk, ihr]

theorem prefixLoop_eq (comp : Compressor) (p : Bytes) (d : Bytes → Bytes) :
    ∀ (entries : List (Bytes × Bytes)) (count : Nat),
    (∀ kv ∈ entries, comp.decompress kv.2 = .ok (d kv.2)) →
    prefixLoop comp none p entries count =
      ((entries.takeWhile fun kv => hasPref p kv.1).map
        fun kv => Event.item kv.1 (d kv.2)) ++ [Event.finished] := by
  intro entries
  induction entries with
  | nil => intro count _; rfl
  | cons kv rest ih =>
    obtain ⟨k, v⟩ := kv
    intro count hdec
    have hd0 : comp.decompress v = .ok (d v) := hdec (k, v) (List.mem_cons_self _ _)
    have ihr := ih (count + 1) (fun kv h => hdec kv (List.mem_cons_of_mem _ h))
    cases hk : hasPref p k with
    | false => simp [prefixLoop, List.takeWhile_cons, hk]
    | true => simp [prefixLoop, List.takeWhile_cons, hk, ctxErrAt, hd0, ihr]

theorem scanLoop_eq (comp : Compressor) (exclusiveEnd : Bytes) (limit : Int)
    (d : Bytes → Bytes) :
    ∀ (entries : List (Bytes × Bytes)) (count : Nat),
    (∀ kv ∈ entries, comp.decompress kv.2 = .ok (d kv.2)) →
    (0 < limit → (count : Int) < limit) →
    scanLoop comp none exclusiveEnd limit entries count =
      ((if 0 < limit then
          (entries.takeWhile fun kv => lexLt kv.1 exclusiveEnd).take
            (limit - count).toNat
        else entries.takeWhile fun kv => lexLt kv.1 exclusiveEnd).map
          fun kv => Event.item kv.1 (d kv.2)) ++ [Event.finished] := by
  intro entries
  induction entries with
  | nil =>
    intro count _ _
    cases Decidable.em (0 < limit) with
    | inl h => simp [scanLoop, h]
    | inr h => simp [scanLoop, h]
  | cons kv rest ih =>
    obtain ⟨k, v⟩ := kv
    intro count hdec hcnt
    have hd0 : comp.decompress v = .ok (d v) := hdec (k, v) (List.mem_cons_self _ _)
    cases hk : lexLt k exclusiveEnd with
    | false =>
      cases Decidable.em (0 < limit) with
      | inl h => simp [scanLoop, List.takeWhile_cons, hk, h]
      | inr h => simp [scanLoop, List.takeWhile_cons, hk, h]
    | true =>
      cases Decidable.em (0 < limit) with
      | inr hlim =>
        have ihr := ih (count + 1) (fun kv h => hdec kv (List.mem_cons_of_mem _ h))
          (fun h => absurd h hlim)
        rw [if_neg hlim] at ihr
        simp [scanLoop, List.takeWhile_cons, hk, ctxErrAt, hd0, ihr, hlim]
      | inl hlim =>
        have hcl : (count : Int) < limit := hcnt hlim
        cases Decidable.em (((count + 1 : Nat) : Int) = limit) with
        | inl heq =>
          have htn : (limit - (count : Int)).toNat = 1 := by
            push_cast at heq
            omega
          simp [scanLoop, List.takeWhile_cons, hk, ctxErrAt, hd0, hlim, heq, htn]
        | inr hne =>
          have ihr := ih (count + 1) (fun kv h => hdec kv (List.mem_cons_of_mem _ h))
            (fun _ => by push_cast at hne hcl ⊢; omega)
          rw [if_pos hlim] at ihr
          have htn : (limit - (count : Int)).toNat
              = (limit - ((count + 1 : Nat) : Int)).toNat + 1 := by
            push_cast
            omega
          simp [scanLoop, List.takeWhile_cons, hk, ctxErrAt, hd0, hne, hlim, ihr,
            htn, List.take_succ_cons]
          intro h
          exact Or.inl (le_of_eq h.symm)

theorem oneTerminal_single (e : Event) (h : e.terminal = true) : OneTerminal [e] :=
  ⟨[], e, rfl, h, by intro x hx; exact absurd hx (List.not_mem_nil x)⟩

theorem oneTerminal_cons (k v : Bytes) {t : List Event} (h : OneTerminal t) :
    OneTerminal (Event.item k v :: t) := by
  obtain ⟨pre, last, rfl, hl, hp⟩ := h
  refine ⟨Event.item k v :: pre, last, rfl, hl, ?_⟩
  intro x hx
  rcases List.mem_cons.mp hx with rfl | hx
  · rfl
  · exact hp x hx

theorem scanLoop_oneTerminal (comp : Compressor) (cancelAt : Option Nat)
    (exclusiveEnd : Bytes) (limit : Int) :
    ∀ (entries : List (Bytes × Bytes)) (count : Nat),
    OneTerminal (scanLoop comp cancelAt exclusiveEnd limit entries count) := by
  intro entries
  induction entries with
  | nil => intro count; exact oneTerminal_single _ rfl
  | cons kv rest ih =>
    obtain ⟨k, v⟩ := kv
    intro count
    simp only [scanLoop]
    by_cases h1 : lexLt k exclusiveEnd = true
    · rw [if_pos h1]
      by_cases h2 : ctxErrAt cancelAt count = true
      · rw [if_pos h2]
        exact oneTerminal_single _ rfl
      · rw [if_neg h2]
        cases hd : comp.decompress v with
        | error e => exact oneTerminal_single _ rfl
        | ok dv =>
          by_cases h3 : ((count + 1 : Nat) : Int) = limit ∧ 0 < limit
          · rw [if_pos h3]
            exact oneTerminal_cons _ _ (oneTerminal_single _ rfl)
          · rw [if_neg h3]
            exact oneTerminal_cons _ _ (ih (count + 1))
    · rw [if_neg h1]
      exact oneTerminal_single _ rfl

theorem prefixLoop_oneTerminal (comp : Compressor) (cancelAt : Option Nat)
    (p : Bytes) :
    ∀ (entries : List (Bytes × Bytes)) (count : Nat),
    OneTerminal (prefixLoop comp cancelAt p entries count) := by
  intro entries
  induction entries with
  | nil => intro count; exact oneTerminal_single _ rfl
  | cons kv rest ih =>
    obtain ⟨k, v⟩ := kv
    intro count
    simp only [prefixLoop]
    by_cases h1 : hasPref p k = true
    · rw [if_pos h1]
      by_cases h2 : ctxErrAt cancelAt count = true
      · rw [if_pos h2]
        exact oneTerminal_single _ rfl
      · rw [if_neg h2]
        cases hd : comp.decompress v with
        | error e => exact oneTerminal_single _ rfl
        | ok dv => exact oneTerminal_cons _ _ (ih (count + 1))
    · rw [if_neg h1]
      exact oneTerminal_single _ rfl

theorem batchGetLoop_oneTerminal (db : List (Bytes × Bytes)) (comp : Compressor) :
    ∀ keys : List Bytes, OneTerminal (batchGetLoop db comp keys) := by
  intro keys
  induction keys with
  | nil => exact oneTerminal_single _ rfl
  | cons k rest ih =>
    simp only [batchGetLoop]
    cases hl : lookup db k with
    | none => exact oneTerminal_single (Event.err BErr.keyNotFound) rfl
    | some stored =>
      show OneTerminal (match comp.decompress stored with
        | Except.error e => [Event.err e]
        | Except.ok v => Event.item k v :: batchGetLoop db comp rest)
      cases hd : comp.decompress stored with
      | error e => exact oneTerminal_single (Event.err e) rfl
      | ok v => exact oneTerminal_cons k v ih

/-- C8: every iterator trace produced by `Scan`, `Prefix` or `BatchGet`
consists of zero or more items followed by exactly one terminal signal
(an error or finished); no item and no second terminal signal ever
follows the terminal one. -/
theorem iterator_traces_oneTerminal (s : Store) (cancelAt : Option Nat)
    (start exclusiveEnd p : Bytes) (limit : Int) (keys : List Bytes) :
    OneTerminal (s.Scan cancelAt start exclusiveEnd limit)
  ∧ OneTerminal (s.PrefixScan cancelAt p)
  ∧ OneTerminal (s.BatchGet cancelAt keys) :=
  ⟨scanLoop_oneTerminal _ _ _ _ _ _, prefixLoop_oneTerminal _ _ _ _ _,
    batchGetLoop_oneTerminal _ _ _⟩

theorem lexLt_start_mono (start : Bytes) :
    ∀ (a b : Bytes × Bytes), lexLt a.1 b.1 = true →
      lexLt a.1 start = false → lexLt b.1 start = false := by
  intro a b hab ha
  cases hb : lexLt b.1 start with
  | false => rfl
  | true => simp [lexLt_trans hab hb] at ha

/-- Shared characterization of the `Scan` trace over a sorted key space:
the selected range in stored order, truncated by a positive `limit`, then
finished. -/
theorem scan_trace_eq (s : Store) (d : Bytes → Bytes)
    (start exclusiveEnd : Bytes) (limit : Int)
    (hs : Sorted s.db)
    (hdec : ∀ kv ∈ s.db, s.compressor.decompress kv.2 = .ok (d kv.2)) :
    s.Scan none start exclusiveEnd limit =
      ((if 0 < limit then
          (s.db.filter fun kv =>
            !lexLt kv.1 start && lexLt kv.1 exclusiveEnd).take limit.toNat
        else s.db.filter fun kv =>
          !lexLt kv.1 start && lexLt kv.1 exclusiveEnd).map
        fun kv => Event.item kv.1 (d kv.2)) ++ [Event.finished] := by
  have hdrop : s.db.dropWhile (fun kv => lexLt kv.1 start)
      = s.db.filter (fun kv => !lexLt kv.1 start) :=
    dropWhile_eq_filter_of_sorted (lexLt_start_mono start) s.db hs
  have hpair : (s.db.filter (fun kv => !lexLt kv.1 start)).Pairwise
      (fun (a b : Bytes × Bytes) => lexLt a.1 b.1 = true) :=
    hs.filter _
  have hdec' : ∀ kv ∈ s.db.filter (fun kv => !lexLt kv.1 start),
      s.compressor.decompress kv.2 = .ok (d kv.2) :=
    fun kv h => hdec kv (List.mem_of_mem_filter h)
  have hmono2 : ∀ (a b : Bytes × Bytes),
      (fun _ : Bytes × Bytes => True) a → (fun _ : Bytes × Bytes => True) b →
      lexLt a.1 b.1 = true → lexLt b.1 exclusiveEnd = true →
      lexLt a.1 exclusiveEnd = true :=
    fun _ _ _ _ hab hb => lexLt_trans hab hb
  have htw := takeWhile_eq_filter_of_sorted hmono2
    (s.db.filter (fun kv => !lexLt kv.1 start)) hpair (fun _ _ => trivial)
  have hff : ((s.db.filter fun kv => !lexLt kv.1 start).filter
        fun kv => lexLt kv.1 exclusiveEnd)
      = s.db.filter fun kv => !lexLt kv.1 start && lexLt kv.1 exclusiveEnd := by
    rw [List.filter_filter]
    exact List.filter_congr fun kv _ => by rw [Bool.and_comm]
  rw [Store.Scan, hdrop,
    scanLoop_eq s.compressor exclusiveEnd limit d _ 0 hdec' (fun h => by simpa using h),
    htw, hff]
  simp

/-- C2: `Scan(start, exclusiveEnd, limit)` yields exactly the stored pairs
whose key `k` satisfies `start ≤ k < exclusiveEnd` in ascending
byte-lexicographic order (the order of the sorted key space), truncated to
the first `limit` pairs when `limit > 0` and unbounded when `limit ≤ 0`,
followed by the finished signal. -/
theorem scan_yields_range_in_order (s : Store) (d : Bytes → Bytes)
    (start exclusiveEnd : Bytes) (limit : Int)
    (hs : Sorted s.db)
    (hdec : ∀ kv ∈ s.db, s.compressor.decompress kv.2 = .ok (d kv.2)) :
    s.Scan none start exclusiveEnd limit =
      ((if 0 < limit then
          (s.db.filter fun kv =>
            !lexLt kv.1 start && lexLt kv.1 exclusiveEnd).take limit.toNat
        else s.db.filter fun kv =>
          !lexLt kv.1 start && lexLt kv.1 exclusiveEnd).map
        fun kv => Event.item kv.1 (d kv.2)) ++ [Event.finished] :=
  scan_trace_eq s d start exclusiveEnd limit hs hdec

/-- Witness for C2, mirroring the spec's test: over keys
`{"a","b","c","d"}`, `Scan("b","d",0)` yields exactly `["b","c"]` in order
and `Scan("a","d",1)` yields exactly `["a"]`. -/
theorem scan_yields_range_in_order_witness :
    exStore.Scan none [98] [100] 0
      = [Event.item [98] [11], Event.item [99] [12], Event.finished]
  ∧ exStore.Scan none [97] [100] 1
      = [Event.item [97] [10], Event.finished] := by
  constructor
  · have h := scan_yields_range_in_order exStore (fun v => v) [98] [100] 0
      (by decide) (fun kv _ => rfl)
    exact h.trans (by decide)
  · have h := scan_yields_range_in_order exStore (fun v => v) [97] [100] 1
      (by decide) (fun kv _ => rfl)
    exact h.trans (by decide)

/-- C3: `Prefix(p)` yields exactly the stored pairs whose key starts with
`p`, in ascending byte-lexicographic order, excluding every key without
the prefix; and it is observably equal to an unbounded `Scan` over the
prefix's key range (any upper bound `ub` that carves out exactly the
prefixed keys of the store). -/
theorem prefix_yields_prefixed_in_order (s : Store) (d : Bytes → Bytes) (p : Bytes)
    (hs : Sorted s.db)
    (hdec : ∀ kv ∈ s.db, s.compressor.decompress kv.2 = .ok (d kv.2)) :
    s.PrefixScan none p =
      ((s.db.filter fun kv => hasPref p kv.1).map
        fun kv => Event.item kv.1 (d kv.2)) ++ [Event.finished]
  ∧ ∀ ub, (∀ kv ∈ s.db, (!lexLt kv.1 p && lexLt kv.1 ub) = hasPref p kv.1) →
      s.PrefixScan none p = s.Scan none p ub 0 := by
  have hdrop : s.db.dropWhile (fun kv => lexLt kv.1 p)
      = s.db.filter (fun kv => !lexLt kv.1 p) :=
    dropWhile_eq_filter_of_sorted (lexLt_start_mono p) s.db hs
  have hpair : (s.db.filter (fun kv => !lexLt kv.1 p)).Pairwise
      (fun (a b : Bytes × Bytes) => lexLt a.1 b.1 = true) :=
    hs.filter _
  have hdec' : ∀ kv ∈ s.db.filter (fun kv => !lexLt kv.1 p),
      s.compressor.decompress kv.2 = .ok (d kv.2) :=
    fun kv h => hdec kv (List.mem_of_mem_filter h)
  have hmono2 : ∀ (a b : Bytes × Bytes),
      lexLt a.1 p = false → lexLt b.1 p = false →
      lexLt a.1 b.1 = true → hasPref p b.1 = true → hasPref p a.1 = true := by
    intro a b hPa _ hab hqb
    cases hqa : hasPref p a.1 with
    | true => rfl
    | false =>
      have hba := hasPref_between hqb hqa hPa
      have h2 := lexLt_asymm hab
      rw [hba] at h2
      exact absurd h2 (by simp)
  have hPmem : ∀ a ∈ s.db.filter (fun kv => !lexLt kv.1 p),
      lexLt a.1 p = false := by
    intro a ha
    have := List.of_mem_filter ha
    simpa using this
  have htw := takeWhile_eq_filter_of_sorted hmono2
    (s.db.filter (fun kv => !lexLt kv.1 p)) hpair hPmem
  have hff : ((s.db.filter fun kv => !lexLt kv.1 p).filter
        fun kv => hasPref p kv.1)
      = s.db.filter fun kv => hasPref p kv.1 := by
    rw [List.filter_filter]
    refine List.filter_congr fun kv _ => ?_
    cases h : hasPref p kv.1 with
    | true => simp [hasPref_not_lt h]
    | false => simp
  have h1 : s.PrefixScan none p =
      ((s.db.filter fun kv => hasPref p kv.1).map
        fun kv => Event.item kv.1 (d kv.2)) ++ [Event.finished] := by
    rw [Store.PrefixScan, hdrop, prefixLoop_eq s.compressor p d _ 0 hdec', htw, hff]
  refine ⟨h1, ?_⟩
  intro ub hub
  rw [h1, scan_trace_eq s d p ub 0 hs hdec, if_neg (by decide),
    List.filter_congr hub]

/-- Witness for C3, mirroring the spec's test: over keys `{"ab","ac","b"}`,
`Prefix("a")` yields exactly `["ab","ac"]` in order, excluding `"b"`, and
agrees with `Scan("a", "b", 0)`. -/
theorem prefix_yields_prefixed_in_order_witness :
    pStore.PrefixScan none [97]
      = [Event.item [97, 98] [1], Event.item [97, 99] [2], Event.finished]
  ∧ pStore.PrefixScan none [97] = pStore.Scan none [97] [98] 0 := by
  have h := prefix_yields_prefixed_in_order pStore (fun v => v) [97]
    (by decide) (fun kv _ => rfl)
  exact ⟨h.1.trans (by decide), h.2 [98] (by decide)⟩

/-- C4: when every requested key is present and decodes, `BatchGet(keys)`
yields exactly one KV pair per requested key, in the requested order,
then finished; and when reading one key fails, the pairs for the keys
before it are delivered, the failing key's error is the terminal event,
and no later key is read. -/
theorem batchGet_order_and_abort (s : Store) (cancelAt : Option Nat)
    (sv d : Bytes → Bytes) :
    (∀ keys : List Bytes,
      (∀ k ∈ keys, lookup s.db k = some (sv k)) →
      (∀ k ∈ keys, s.compressor.decompress (sv k) = .ok (d k)) →
      s.BatchGet cancelAt keys
        = keys.map (fun k => Event.item k (d k)) ++ [Event.finished])
  ∧ (∀ (ks1 : List Bytes) (k : Bytes) (ks2 : List Bytes) (e : BErr),
      (∀ k' ∈ ks1, lookup s.db k' = some (sv k')) →
      (∀ k' ∈ ks1, s.compressor.decompress (sv k') = .ok (d k')) →
      lookup s.db k = some (sv k) →
      s.compressor.decompress (sv k) = .error e →
      s.BatchGet cancelAt (ks1 ++ k :: ks2)
        = ks1.map (fun k' => Event.item k' (d k')) ++ [Event.err e]) := by
  constructor
  · intro keys hv hd
    have happ := batchGetLoop_append_ok s.db s.compressor sv d keys [] hv hd
    rw [List.append_nil] at happ
    exact happ
  · intro ks1 k ks2 e hv hd hk he
    have happ := batchGetLoop_append_ok s.db s.compressor sv d ks1 (k :: ks2) hv hd
    have hstep : batchGetLoop s.db s.compressor (k :: ks2) = [Event.err e] := by
      simp [batchGetLoop, hk, he]
    rw [Store.BatchGet, happ, hstep]

/-- The codec used to exercise a failing read inside `BatchGet`: it
refuses to decode the stored byte string `[99]`. -/
def errComp : Compressor :=
  ⟨fun v => v, fun v => if v = [99] then .error .codecErr else .ok v⟩

/-- A store holding one well-formed value, one value `errComp` cannot
decode, and one more key after it. -/
def errStore : Store := ⟨[([1], [5]), ([2], [99]), ([3], [7])], none, errComp⟩

/-- Witness for C4, mirroring the spec's test: `BatchGet([k2, k1, k3])`
with all present yields results in the order `[k2, k1, k3]`; with a read
failure on the middle key, the first pair is delivered, the error is
terminal and the third key is never read. -/
theorem batchGet_order_and_abort_witness :
    exStore.BatchGet none [[98], [97], [99]]
      = [Event.item [98] [11], Event.item [97] [10], Event.item [99] [12],
         Event.finished]
  ∧ errStore.BatchGet none [[1], [2], [3]]
      = [Event.item [1] [5], Event.err BErr.codecErr] := by
  have h1 := (batchGet_order_and_abort exStore none
      (fun k => (lookup exDb k).getD []) (fun k => (lookup exDb k).getD [])).1
    [[98], [97], [99]]
    (by intro k hk; fin_cases hk <;> rfl)
    (by intro k hk; fin_cases hk <;> rfl)
  have h2 := (batchGet_order_and_abort errStore none
      (fun k => (lookup errStore.db k).getD [])
      (fun k => (lookup errStore.db k).getD [])).2
    [[1]] [2] [[3]] BErr.codecErr
    (by intro k hk; fin_cases hk <;> rfl)
    (by intro k hk; fin_cases hk <;> rfl)
    rfl rfl
  exact ⟨h1.trans (by decide), h2.trans (by decide)⟩

/-- C10: a key absent from the store aborts `BatchGet` with the engine's
raw `ErrKeyNotFound` as the terminal event — it is not translated to the
store's distinguished `ErrNotFound`; no pair is produced for the absent
key, the keys after it are never read, and the pairs before it were
already delivered. -/
theorem batchGet_missing_key_raw_error (s : Store) (cancelAt : Option Nat)
    (sv d : Bytes → Bytes) (ks1 : List Bytes) (k : Bytes) (ks2 : List Bytes)
    (hv : ∀ k' ∈ ks1, lookup s.db k' = some (sv k'))
    (hd : ∀ k' ∈ ks1, s.compressor.decompress (sv k') = .ok (d k'))
    (hmiss : lookup s.db k = none) :
    s.BatchGet cancelAt (ks1 ++ k :: ks2)
      = ks1.map (fun k' => Event.item k' (d k')) ++ [Event.err BErr.keyNotFound]
  ∧ BErr.keyNotFound ≠ BErr.errNotFound := by
  constructor
  · have happ := batchGetLoop_append_ok s.db s.compressor sv d ks1 (k :: ks2) hv hd
    have hstep : batchGetLoop s.db s.compressor (k :: ks2)
        = [Event.err BErr.keyNotFound] := by
      simp [batchGetLoop, hmiss]
    rw [Store.BatchGet, happ, hstep]
  · decide

/-- Witness for C10: requesting present `"a"`, then never-written key
`[5]`, then present `"c"` delivers the pair for `"a"` and terminates with
the raw key-not-found error. -/
theorem batchGet_missing_key_raw_error_witness :
    exStore.BatchGet none [[97], [5], [99]]
      = [Event.item [97] [10], Event.err BErr.keyNotFound]
  ∧ BErr.keyNotFound ≠ BErr.errNotFound := by
  have h := batchGet_missing_key_raw_error exStore none
    (fun k => (lookup exDb k).getD []) (fun k => (lookup exDb k).getD [])
    [[97]] [5] [[99]]
    (by intro k hk; fin_cases hk <;> rfl)
    (by intro k hk; fin_cases hk <;> rfl)
    rfl
  exact ⟨h.1.trans (by decide), h.2⟩

/-- C1: `Put(k, v)` compresses `v` with the store's compressor and stages
it; after a successful `FlushPuts()`, `Get(k)` returns exactly `v`,
because decompression inverts compression. Holds for any prior store
state, any engine capacity ≥ 1 and any badger-valid (non-empty) key. -/
theorem put_flush_get_roundtrip (s : Store) (cap : Nat) (key value : Bytes)
    (hround : ∀ v, s.compressor.decompress (s.compressor.compress v) = .ok v)
    (hkey : key ≠ []) (hcap : 1 ≤ cap) :
    ∃ s₁ s₂, s.Put cap key value = .ok s₁ ∧ s₁.FlushPuts = .ok s₂
      ∧ s₂.Get key = .ok value := by
  have hse0 : setEntry cap [] (key, s.compressor.compress value)
      = .ok [(key, s.compressor.compress value)] := by
    rw [setEntry, if_neg hkey, if_neg (by simp; omega)]
    rfl
  cases hwb : s.writeBatch with
  | none =>
    refine ⟨{ s with writeBatch := some [(key, s.compressor.compress value)] },
      { db := insertKV s.db (key, s.compressor.compress value),
        writeBatch := some [], compressor := s.compressor }, ?_, ?_, ?_⟩
    · simp only [Store.Put, hwb, hse0]
    · rfl
    · rw [Store.Get]
      rw [lookup_insertKV_self]
      exact hround value
  | some wb =>
    by_cases hfull : cap ≤ wb.length
    · have hseF : setEntry cap wb (key, s.compressor.compress value)
          = .error .txnTooBig := by
        rw [setEntry, if_neg hkey, if_pos hfull]
      refine ⟨{ db := insertAll s.db wb,
                writeBatch := some [(key, s.compressor.compress value)],
                compressor := s.compressor },
        { db := insertKV (insertAll s.db wb) (key, s.compressor.compress value),
          writeBatch := some [], compressor := s.compressor }, ?_, ?_, ?_⟩
      · simp only [Store.Put, hwb, hseF, hse0]
      · rfl
      · rw [Store.Get]
        rw [lookup_insertKV_self]
        exact hround value
    · have hseOk : setEntry cap wb (key, s.compressor.compress value)
          = .ok (wb ++ [(key, s.compressor.compress value)]) := by
        rw [setEntry, if_neg hkey, if_neg hfull]
      refine ⟨{ s with
          writeBatch := some (wb ++ [(key, s.compressor.compress value)]) },
        { db := insertAll s.db (wb ++ [(key, s.compressor.compress value)]),
          writeBatch := some [], compressor := s.compressor }, ?_, ?_, ?_⟩
      · simp only [Store.Put, hwb, hseOk]
      · rfl
      · rw [Store.Get, insertAll_append_single]
        rw [lookup_insertKV_self]
        exact hround value

/-- Witness for C1: writing value `[42]` at key `[105]` to the concrete
store, flushing, then reading it back yields `[42]`. -/
theorem put_flush_get_roundtrip_witness :
    ∃ s₁ s₂, exStore.Put 10 [105] [42] = .ok s₁ ∧ s₁.FlushPuts = .ok s₂
      ∧ s₂.Get [105] = .ok [42] :=
  put_flush_get_roundtrip exStore 10 [105] [42] (fun _ => rfl)
    (by decide) (by decide)

/-- C5: `Get` on a key never written returns exactly the store's
distinguished `ErrNotFound` (not a zero-length value, not any other
error), and on a present key returns the decompressed stored value;
`ErrNotFound` arises from no other condition (given a codec that never
fabricates it). -/
theorem get_notfound_distinguished (s : Store) (key : Bytes)
    (hc : ∀ b, s.compressor.decompress b ≠ .error BErr.errNotFound) :
    (s.Get key = .error BErr.errNotFound ↔ lookup s.db key = none)
  ∧ ∀ stored, lookup s.db key = some stored →
      s.Get key = s.compressor.decompress stored := by
  constructor
  · constructor
    · intro h
      cases hl : lookup s.db key with
      | none => rfl
      | some stored =>
        rw [Store.Get, hl] at h
        exact absurd h (hc stored)
    · intro h
      rw [Store.Get, h]
  · intro stored h
    rw [Store.Get, h]

/-- Witness for C5: key `[105]` was never written, so `Get` returns
`ErrNotFound`; key `"a"` is present and `Get` returns its decoded value. -/
theorem get_notfound_distinguished_witness :
    (exStore.Get [105] = .error BErr.errNotFound ↔ lookup exStore.db [105] = none)
  ∧ exStore.Get [97] = exStore.compressor.decompress [10] := by
  have h1 := get_notfound_distinguished exStore [105]
    (fun _ h => Except.noConfusion h)
  have h2 := get_notfound_distinguished exStore [97]
    (fun _ h => Except.noConfusion h)
  exact ⟨h1.1, h2.2 [10] rfl⟩

/-- C6: when staging would exceed the engine's single-transaction
capacity, `Put` flushes the existing buffer into the durable key space,
opens a fresh buffer holding exactly the triggering write, and returns
success — no capacity error reaches the caller, and no staged write is
lost or duplicated. -/
theorem put_autoflush_on_capacity (s : Store) (wb : List (Bytes × Bytes))
    (cap : Nat) (key value : Bytes)
    (hwb : s.writeBatch = some wb) (hfull : cap ≤ wb.length)
    (hkey : key ≠ []) (hcap : 1 ≤ cap) :
    s.Put cap key value
      = .ok { db := insertAll s.db wb,
              writeBatch := some [(key, s.compressor.compress value)],
              compressor := s.compressor } := by
  have hseF : setEntry cap wb (key, s.compressor.compress value)
      = .error .txnTooBig := by
    rw [setEntry, if_neg hkey, if_pos hfull]
  have hse0 : setEntry cap [] (key, s.compressor.compress value)
      = .ok [(key, s.compressor.compress value)] := by
    rw [setEntry, if_neg hkey, if_neg (by simp; omega)]
    rfl
  simp only [Store.Put, hwb, hseF, hse0]

/-- Witness for C6: a store whose batch already holds one entry, against
an engine of capacity 1: `Put` succeeds, the old entry becomes durable and
the fresh buffer holds exactly the new write. -/
theorem put_autoflush_on_capacity_witness :
    fullStore.Put 1 [2] [9]
      = .ok { db := [([1], [1])], writeBatch := some [([2], [9])],
              compressor := idComp } :=
  put_autoflush_on_capacity fullStore [([1], [1])] 1 [2] [9] rfl
    (by decide) (by decide) (by decide)

/-- C9: when staging fails with any engine error other than
`ErrTxnTooBig` (here: badger's empty-key rejection), `Put` falls through
to `return nil`: the caller sees success, the entry is not in the write
batch, and nothing else changed — the write is silently dropped. -/
theorem put_swallows_other_staging_errors (s : Store) (cap : Nat)
    (key value : Bytes) (e : BErr)
    (hse : setEntry cap (s.writeBatch.getD []) (key, s.compressor.compress value)
      = .error e)
    (hne : e ≠ .txnTooBig) :
    s.Put cap key value = .ok { s with writeBatch := some (s.writeBatch.getD []) } := by
  cases hwb : s.writeBatch with
  | none =>
    rw [hwb] at hse
    simp only [Option.getD] at hse
    cases e with
    | txnTooBig => exact absurd rfl hne
    | errNotFound => simp only [Store.Put, hwb, hse, Option.getD]
    | keyNotFound => simp only [Store.Put, hwb, hse, Option.getD]
    | emptyKey => simp only [Store.Put, hwb, hse, Option.getD]
    | canceled => simp only [Store.Put, hwb, hse, Option.getD]
    | codecErr => simp only [Store.Put, hwb, hse, Option.getD]
    | afterTxnTooBig e2 => simp only [Store.Put, hwb, hse, Option.getD]
  | some wb =>
    rw [hwb] at hse
    simp only [Option.getD] at hse
    cases e with
    | txnTooBig => exact absurd rfl hne
    | errNotFound => simp only [Store.Put, hwb, hse, Option.getD]
    | keyNotFound => simp only [Store.Put, hwb, hse, Option.getD]
    | emptyKey => simp only [Store.Put, hwb, hse, Option.getD]
    | canceled => simp only [Store.Put, hwb, hse, Option.getD]
    | codecErr => simp only [Store.Put, hwb, hse, Option.getD]
    | afterTxnTooBig e2 => simp only [Store.Put, hwb, hse, Option.getD]

/-- Witness for C9: putting under the empty key — which the engine rejects
with `ErrEmptyKey`, not a capacity error — returns success while staging
nothing. -/
theorem put_swallows_other_staging_errors_witness :
    exStore.Put 10 [] [9] = .ok { exStore with writeBatch := some [] } :=
  put_swallows_other_staging_errors exStore 10 [] [9] BErr.emptyKey rfl
    (by decide)

/-- C7 (code bug): the spec requires every multi-result producer to check
the caller's cancellation token at least once per produced item. `Scan`
and `Prefix` do (and terminate with the cancellation error), but
`BatchGet`'s loop never consults the context — even with the token fired
before any work, it still produces the item and pushes finished. -/
theorem batchGet_ignores_cancellation :
    exStore.BatchGet (some 0) [[97]] = [Event.item [97] [10], Event.finished]
  ∧ exStore.Scan (some 0) [97] [101] 0 = [Event.err BErr.canceled]
  ∧ exStore.PrefixScan (some 0) [97] = [Event.err BErr.canceled] := by
  refine ⟨?_, ?_, ?_⟩ <;> decide

end Kvdb
